import Mathlib

/-!
Verification development for the PyThaiNLP text-normalization module
(`pythainlp/util/normalize.py`).

Text is embedded as `List Char`.  Python string operations are translated
operation by operation: slicing and `in` become list operations, regular
expression substitutions become explicit scanners with the same match
semantics, global mutable state (the repeater cache) becomes an explicit
function argument, and operations that can raise (`dict[key]`, `s[-1]`,
`lst[i]`) return `Option`, with `none` standing for the Python exception.
-/

namespace PyThaiNLP

/-- Modelled from the spec: the consonant character-class table
("static sets of codepoints ... consonant"); the literal table lives in the
package root (`pythainlp/__init__.py`), outside the provided sources.  It is
the 44 Thai consonant letters U+0E01..U+0E2E. -/
def thai_consonants : List Char :=
  ['ก', 'ข', 'ฃ', 'ค', 'ฅ', 'ฆ', 'ง', 'จ', 'ฉ', 'ช', 'ซ', 'ฌ', 'ญ', 'ฎ',
   'ฏ', 'ฐ', 'ฑ', 'ฒ', 'ณ', 'ด', 'ต', 'ถ', 'ท', 'ธ', 'น', 'บ', 'ป', 'ผ',
   'ฝ', 'พ', 'ฟ', 'ภ', 'ม', 'ย', 'ร', 'ล', 'ว', 'ศ', 'ษ', 'ส', 'ห', 'ฬ',
   'อ', 'ฮ']

/-- Modelled from the spec: the tone-mark character-class table (the four
Thai tone marks U+0E48..U+0E4B); literal table in the package root, outside
the provided sources. -/
def thai_tonemarks : List Char := ['่', '้', '๊', '๋']

/-- Modelled from the spec: the above-vowel character-class table; literal
table in the package root, outside the provided sources. -/
def thai_above_vowels : List Char := ['ั', 'ิ', 'ี', 'ึ', 'ื', '็']

/-- Modelled from the spec: the below-vowel character-class table; literal
table in the package root, outside the provided sources. -/
def thai_below_vowels : List Char := ['ุ', 'ู']

/-- Modelled from the spec: the leading-vowel character-class table; literal
table in the package root, outside the provided sources. -/
def thai_lead_vowels : List Char := ['เ', 'แ', 'โ', 'ใ', 'ไ']

/-- Modelled from the spec: the following-vowel character-class table;
literal table in the package root, outside the provided sources. -/
def thai_follow_vowels : List Char := ['ะ', 'า', 'ำ', 'ๅ']

/-- `_DANGLING_CHARS`: above vowels, below vowels, tone marks, plus
Phinthu U+0E3A, Thanthakhat U+0E4C, Nikhahit U+0E4D, Yamakkan U+0E4E. -/
def danglingChars : List Char :=
  thai_above_vowels ++ thai_below_vowels ++ thai_tonemarks ++
    ['ฺ', '์', 'ํ', '๎']

/-- `_NOREPEAT_CHARS`: vowels plus Phinthu, Thanthakhat, Nikhahit, Yamakkan
(string concatenation order as in the source). -/
def norepeatChars : List Char :=
  thai_follow_vowels ++ thai_lead_vowels ++ thai_above_vowels ++
    thai_below_vowels ++ ['ฺ', '์', 'ํ', '๎']

/-- `_ZERO_WIDTH_CHARS`: ZWSP and ZWNJ. -/
def zeroWidthChars : List Char := ['​', '‌']

/-- Python `s[-n:]` on a list.  For `n = 0` Python's `s[-0:]` is `s[0:]`,
i.e. the whole string; for `n > 0` it is the last `min n (length s)`
characters. -/
def pySliceLastN (s : List Char) (n : Nat) : List Char :=
  if n = 0 then s else s.drop (s.length - n)

/-- `_get_repitition_head(text, dup)`: the Python loop pops the last
character while it equals `dup`; equivalently, strip the maximal trailing
run of `dup`. -/
def get_repitition_head (text : List Char) (dup : Char) : List Char :=
  (text.reverse.dropWhile (· == dup)).reverse

/-- `_is_consonant_repeater(word)`: length > 1, last two characters equal,
and the last character is a Thai consonant. -/
def is_consonant_repeater (word : List Char) : Bool :=
  match word.reverse with
  | a :: b :: _ => a == b && a ∈ thai_consonants
  | _ => false

/-- The match test inside `_find_longest_consonant_repeaters_match`, without
the is-longer-than-current-best conjunct:
`len(segment_head) >= len(repeater_head)` and
`segment_head[-len(repeater_head):] == repeater_head`.
`none` for the Python `IndexError` on `repeater[-1]` of an empty word. -/
def repeater_matches (segment_head r : List Char) : Option Bool :=
  match r.getLast? with
  | none => none
  | some c =>
    let rh := get_repitition_head r c
    some (decide (rh.length ≤ segment_head.length) &&
          (pySliceLastN segment_head rh.length == rh))

/-- The loop of `_find_longest_consonant_repeaters_match`, carrying the
current best `(longest_word, repetition)`. -/
def find_longest_go (segment_head : List Char) :
    List Char × Nat → List (List Char) → Option (List Char × Nat)
  | best, [] => some best
  | best, r :: rs =>
    match r.getLast? with
    | none => none
    | some c =>
      let rh := get_repitition_head r c
      if (decide (rh.length ≤ segment_head.length) &&
          (pySliceLastN segment_head rh.length == rh)) &&
         decide (best.1.length < r.length)
      then find_longest_go segment_head (r, r.length - rh.length) rs
      else find_longest_go segment_head best rs

/-- `_find_longest_consonant_repeaters_match(segment_head, repeaters)`:
scan the candidate list, adopting a candidate when its stripped head slice
test passes and it is strictly longer than the current best; start from
`("", 0)`. -/
def find_longest_consonant_repeaters_match
    (segment_head : List Char) (repeaters : List (List Char)) :
    Option (List Char × Nat) :=
  find_longest_go segment_head ([], 0) repeaters

/-- `_remove_repeat_consonants_from_segment(segment, ...)`.  The global
`consonants_repeaters` dictionary is passed explicitly as `cache`;
`cache d = none` models a `KeyError` on `consonants_repeaters[dup]`. -/
def remove_repeat_consonants_from_segment (segment : List Char)
    (cache : Char → Option (List (List Char))) : Option (List Char) :=
  match segment.reverse with
  | r1 :: r2 :: _ =>
    if r1 ∈ thai_consonants && r1 == r2 then
      (cache r1).bind (fun repeaters =>
        let head := get_repitition_head segment r1
        (find_longest_consonant_repeaters_match head repeaters).map
          (fun wk =>
            if 0 < wk.1.length then head ++ List.replicate wk.2 r1
            else head ++ [r1]))
    else some segment
  | _ => some segment

/-- `_update_consonant_repeaters(dictionary)`: reset the entry of every
consonant to the (ordered) list of dictionary words that are consonant
repeaters ending in that consonant; non-consonant keys keep their old
value (none are ever written). -/
def update_consonant_repeaters (dictionary : List (List Char))
    (cache : Char → Option (List (List Char))) :
    Char → Option (List (List Char)) :=
  fun c =>
    if c ∈ thai_consonants then
      some (dictionary.filter
        (fun w => is_consonant_repeater w && (w.getLast? == some c)))
    else cache c

/-- `remove_repeat_consonants(text, dictionary, dictionary_updated)`:
split on newlines, split each line on spaces, resolve each segment, rejoin
with the original separators.  The module-global repeater cache is the
explicit `cache` argument; `none` propagates a `KeyError`. -/
def remove_repeat_consonants (text : List Char)
    (dictionary : List (List Char))
    (cache : Char → Option (List (List Char)))
    (dictionary_updated : Bool) : Option (List Char) :=
  let cache' := if dictionary_updated
                then update_consonant_repeaters dictionary cache
                else cache
  match (text.splitOn '\n').mapM (fun line =>
      ((line.splitOn ' ').mapM
        (fun seg => remove_repeat_consonants_from_segment seg cache')).map
        (fun segs => List.intercalate [' '] segs)) with
  | some ls => some (List.intercalate ['\n'] ls)
  | none => none

/-- Length of the maximal trailing run of `c` in `s` (used to state the
repeat-count invariant of claim C1). -/
def trailingRunLength (s : List Char) (c : Char) : Nat :=
  (s.reverse.takeWhile (· == c)).length

/-- `remove_zw(text)`: the source loops `while ch in text: text =
text.replace(ch, "")` for each zero-width character; `str.replace(ch, "")`
deletes every occurrence, so the net effect is removing all zero-width
characters. -/
def remove_zw (text : List Char) : List Char :=
  zeroWidthChars.foldl (fun t ch => t.filter (· ≠ ch)) text

/-- One `text.replace("  ", " ")` pass: non-overlapping, leftmost-first,
the replacement character is not rescanned within the pass. -/
def replaceDoubleSpace : List Char → List Char
  | a :: b :: rest =>
    if a == ' ' && b == ' ' then ' ' :: replaceDoubleSpace rest
    else a :: replaceDoubleSpace (b :: rest)
  | l => l

/-- Python `"  " in text`. -/
def hasDoubleSpace : List Char → Bool
  | a :: b :: rest => (a == ' ' && b == ' ') || hasDoubleSpace (b :: rest)
  | _ => false

/-- The `while "  " in text` loop, with explicit fuel; each replacement
pass strictly shortens the text, so fuel `text.length` reaches the
fixpoint the Python loop terminates at. -/
def dupSpacesLoop : Nat → List Char → List Char
  | 0, t => t
  | n + 1, t =>
    if hasDoubleSpace t then dupSpacesLoop n (replaceDoubleSpace t) else t

/-- `_RE_REMOVE_NEWLINES = re.compile("[ \n]*\n[ \n]*")`, substituted by a
single newline: each maximal run of spaces/newlines that contains at least
one newline is replaced by one newline.  Scanner state: `cnt` pending
spaces of the current run, `nl` whether the run contains a newline (the
run's characters are discarded when it does). -/
def removeNewlinesGo (cnt : Nat) (nl : Bool) : List Char → List Char
  | [] => if nl then ['\n'] else List.replicate cnt ' '
  | c :: rest =>
    if c == ' ' then removeNewlinesGo (cnt + 1) nl rest
    else if c == '\n' then removeNewlinesGo 0 true rest
    else (if nl then ['\n'] else List.replicate cnt ' ') ++
          c :: removeNewlinesGo 0 false rest

/-- `_RE_REMOVE_NEWLINES.sub("\n", text)`. -/
def removeNewlines (text : List Char) : List Char :=
  removeNewlinesGo 0 false text

/-- Python whitespace characters, for `str.strip()` / `str.isspace()`
(the ASCII whitespace range; the texts this module manipulates contain
only spaces, newlines and tabs of these). -/
def pyWhitespace (c : Char) : Bool :=
  c == ' ' || c == '\t' || c == '\n' || c == '\r' ||
    c == '\x0b' || c == '\x0c'

/-- Trailing-whitespace trim (the right half of `str.strip()`). -/
def trimRight : List Char → List Char
  | [] => []
  | c :: rest =>
    if (trimRight rest).isEmpty then
      (if pyWhitespace c then [] else [c])
    else c :: trimRight rest

/-- `text.strip()`. -/
def pyStrip (text : List Char) : List Char :=
  trimRight (text.dropWhile pyWhitespace)

/-- `remove_dup_spaces(text)`: collapse double spaces to a fixpoint, then
collapse newline runs, then strip. -/
def remove_dup_spaces (text : List Char) : List Char :=
  pyStrip (removeNewlines (dupSpacesLoop text.length text))

/-- Reorder rule 1: `re.sub("\u0e40\u0e40", "\u0e41", text)` — Sara E +
Sara E becomes Sara Ae (non-overlapping, leftmost-first). -/
def reorderRule1 : List Char → List Char
  | a :: b :: rest =>
    if a == 'เ' && b == 'เ' then 'แ' :: reorderRule1 rest
    else a :: reorderRule1 (b :: rest)
  | l => l

/-- Character class of reorder rule 2's first group: tone marks plus
Thanthakhat U+0E4C. -/
def toneOrThanthakhat (c : Char) : Bool :=
  c ∈ thai_tonemarks || c == '์'

/-- Character class of reorder rule 2's second group: above or below
vowels. -/
def aboveOrBelowVowel (c : Char) : Bool :=
  c ∈ thai_above_vowels || c ∈ thai_below_vowels

/-- Reorder rule 2 scanner:
`re.sub("([tonemarks\u0e4c]+)([above,below vowels]+)", "\\2\\1", text)`.
The two classes are disjoint, so a greedy scan needs no backtracking:
accumulate the group-1 run in `trun`; once at least one group-2 character
follows, accumulate it in `abrun`; on leaving group 2 emit the swap and
rescan from the next character (`re.sub` continues after the match). -/
def reorderRule2Go (trun abrun : List Char) : List Char → List Char
  | [] => if abrun.isEmpty then trun else abrun ++ trun
  | c :: rest =>
    if abrun.isEmpty then
      if toneOrThanthakhat c then reorderRule2Go (trun ++ [c]) [] rest
      else if !trun.isEmpty && aboveOrBelowVowel c then
        reorderRule2Go trun [c] rest
      else trun ++ c :: reorderRule2Go [] [] rest
    else
      if aboveOrBelowVowel c then reorderRule2Go trun (abrun ++ [c]) rest
      else if toneOrThanthakhat c then
        (abrun ++ trun) ++ reorderRule2Go [c] [] rest
      else (abrun ++ trun) ++ c :: reorderRule2Go [] [] rest

/-- Reorder rule 2 (tone mark / Thanthakhat before an above/below vowel is
moved after it). -/
def reorderRule2 (text : List Char) : List Char :=
  reorderRule2Go [] [] text

/-- Reorder rule 3 scanner:
`re.sub("\u0e4d([tonemarks]*)\u0e32", "\\1\u0e33", text)` — Nikhahit +
tone marks + Sara Aa becomes tone marks + Sara Am.  State `some trun`
means a Nikhahit followed by the tone-mark run `trun` has been consumed;
Nikhahit is not a tone mark and Sara Aa is not a tone mark, so the greedy
scan needs no backtracking. -/
def reorderRule3Go : Option (List Char) → List Char → List Char
  | none, [] => []
  | some trun, [] => 'ํ' :: trun
  | none, c :: rest =>
    if c == 'ํ' then reorderRule3Go (some []) rest
    else c :: reorderRule3Go none rest
  | some trun, c :: rest =>
    if c ∈ thai_tonemarks then reorderRule3Go (some (trun ++ [c])) rest
    else if c == 'า' then (trun ++ ['ำ']) ++ reorderRule3Go none rest
    else if c == 'ํ' then ('ํ' :: trun) ++ reorderRule3Go (some []) rest
    else ('ํ' :: trun) ++ c :: reorderRule3Go none rest

/-- Reorder rule 3. -/
def reorderRule3 (text : List Char) : List Char :=
  reorderRule3Go none text

/-- Membership in the follow-vowel class. -/
def isFollowVowel (c : Char) : Bool := c ∈ thai_follow_vowels

/-- Membership in the tone-mark class. -/
def isTonemark (c : Char) : Bool := c ∈ thai_tonemarks

/-- Reorder rule 4 scanner:
`re.sub("([follow vowels]+)([tonemarks]+)", "\\2\\1", text)` — same shape
as rule 2 with the (disjoint) classes follow-vowel and tone-mark. -/
def reorderRule4Go (frun trun : List Char) : List Char → List Char
  | [] => if trun.isEmpty then frun else trun ++ frun
  | c :: rest =>
    if trun.isEmpty then
      if isFollowVowel c then reorderRule4Go (frun ++ [c]) [] rest
      else if !frun.isEmpty && isTonemark c then
        reorderRule4Go frun [c] rest
      else frun ++ c :: reorderRule4Go [] [] rest
    else
      if isTonemark c then reorderRule4Go frun (trun ++ [c]) rest
      else if isFollowVowel c then
        (trun ++ frun) ++ reorderRule4Go [c] [] rest
      else (trun ++ frun) ++ c :: reorderRule4Go [] [] rest

/-- Reorder rule 4. -/
def reorderRule4 (text : List Char) : List Char :=
  reorderRule4Go [] [] text

/-- Reorder rule 5: `re.sub("([^\u0e24\u0e26])\u0e45", "\\1\u0e32", text)`
— Lakkhangyao not preceded by Ru/Lu becomes Sara Aa. -/
def reorderRule5 : List Char → List Char
  | a :: b :: rest =>
    if b == 'ๅ' && a != 'ฤ' && a != 'ฦ' then
      a :: 'า' :: reorderRule5 rest
    else a :: reorderRule5 (b :: rest)
  | l => l

/-- `reorder_vowels(text)`: the five `_REORDER_PAIRS` substitutions applied
in order. -/
def reorder_vowels (text : List Char) : List Char :=
  reorderRule5 (reorderRule4 (reorderRule3 (reorderRule2
    (reorderRule1 text))))

/-- `_NOREPEAT_PAIRS` scanner for one character `ch`:
`re.sub("(ch[ ]*)+ch", ch, text)`.  A maximal chain
`ch (spaces* ch)+` is replaced by a single `ch`; a lone `ch` (possibly
followed by spaces not leading to another `ch`) is left as is — in both
cases the output is one `ch` followed by the pending spaces, so the
scanner state is just the pending space count inside a chain
(`some cnt`), or `none` outside a chain. -/
def norepeatGo (ch : Char) : Option Nat → List Char → List Char
  | none, [] => []
  | some cnt, [] => ch :: List.replicate cnt ' '
  | none, c :: rest =>
    if c == ch then norepeatGo ch (some 0) rest
    else c :: norepeatGo ch none rest
  | some cnt, c :: rest =>
    if c == ch then norepeatGo ch (some 0) rest
    else if c == ' ' then norepeatGo ch (some (cnt + 1)) rest
    else ch :: (List.replicate cnt ' ' ++ c :: norepeatGo ch none rest)

/-- One `_NOREPEAT_PAIRS` substitution. -/
def norepeatSub (ch : Char) (text : List Char) : List Char :=
  norepeatGo ch none text

/-- All `_NOREPEAT_PAIRS` substitutions, in `_NOREPEAT_CHARS` order. -/
def norepeatAll (text : List Char) : List Char :=
  norepeatChars.foldl (fun t ch => norepeatSub ch t) text

/-- `_RE_TONEMARKS.sub(_last_char, text)`: every maximal run of tone marks
is replaced by its last character.  Scanner: a tone mark followed by
another tone mark is dropped (a later mark in the same run supersedes
it); the last mark of a run is kept. -/
def collapseTonemarks : List Char → List Char
  | [] => []
  | c :: rest =>
    if isTonemark c then
      match rest with
      | [] => [c]
      | d :: _ =>
        if isTonemark d then collapseTonemarks rest
        else c :: collapseTonemarks rest
    else c :: collapseTonemarks rest

/-- `remove_repeat_vowels(text)`: reorder, collapse repeated
vowels/signs, then collapse tone-mark runs to their last mark. -/
def remove_repeat_vowels (text : List Char) : List Char :=
  collapseTonemarks (norepeatAll (reorder_vowels text))

/-- Membership in `_DANGLING_CHARS`. -/
def isDangling (c : Char) : Bool := c ∈ danglingChars

/-- `remove_dangling(text)`: `_RE_REMOVE_DANGLINGS = "^[_DANGLING_CHARS]+"`
substituted by the empty string — drop the maximal leading run of
dangling characters. -/
def remove_dangling (text : List Char) : List Char :=
  text.dropWhile isDangling

/-- `normalize(text)`: `remove_zw`, `remove_dup_spaces`,
`remove_repeat_vowels`, `remove_dangling`, in that order. -/
def normalize (text : List Char) : List Char :=
  remove_dangling (remove_repeat_vowels (remove_dup_spaces
    (remove_zw text)))

/-- Python `text.isspace()`: nonempty and all characters whitespace. -/
def pyIsSpaceStr (s : List Char) : Bool :=
  !s.isEmpty && s.all pyWhitespace

/-- Python `"ๆ" in text` (the MaiYaMok repetition mark U+0E46). -/
def containsMark (s : List Char) : Bool := 'ๆ' ∈ s

/-- `text.replace(" ๆ", "ๆ")`: non-overlapping, leftmost-first. -/
def replaceFusedMark : List Char → List Char
  | a :: b :: rest =>
    if a == ' ' && b == 'ๆ' then 'ๆ' :: replaceFusedMark rest
    else a :: replaceFusedMark (b :: rest)
  | l => l

/-- `text.replace("ๆ", "")`: removing every occurrence of the
single-character mark. -/
def stripMark (s : List Char) : List Char := s.filter (· ≠ 'ๆ')

/-- The token loop of `maiyamok(sent)`.  `acc` is `_list_word`; the
source's running index `i` always equals `len(_list_word)`, so
`_list_word[i-1]` is the last appended token (Python raises `IndexError`
on the empty list, modelled by `Option.elim` on `getLast?` with `none`).
A whitespace-only token makes the loop inspect `sent[j+1]`; at the last
position that lookup raises `IndexError` (`Option.elim` on `head?` with
`none`).  Python's `and` short-circuits, so the lookup happens only when
`text.isspace()` is true.  The per-token processing of the loop body is
written out twice (in the whitespace branch whose lookahead found no mark,
and in the non-whitespace branch), mirroring the single fall-through body
of the Python loop. -/
def maiyamokGo (acc : List (List Char)) :
    List (List Char) → Option (List (List Char))
  | [] => some acc
  | t :: rest =>
    if pyIsSpaceStr t then
      rest.head?.elim none (fun next =>
        if containsMark next then maiyamokGo acc rest
        else
          if (if [' ', 'ๆ'] <:+: t then replaceFusedMark t else t)
              == ['ๆ'] then
            acc.getLast?.elim none
              (fun w => maiyamokGo (acc ++ [w]) rest)
          else if containsMark
              (if [' ', 'ๆ'] <:+: t then replaceFusedMark t else t) then
            maiyamokGo (acc ++
              [stripMark (if [' ', 'ๆ'] <:+: t then replaceFusedMark t
                 else t),
               stripMark (if [' ', 'ๆ'] <:+: t then replaceFusedMark t
                 else t)]) rest
          else maiyamokGo (acc ++
            [(if [' ', 'ๆ'] <:+: t then replaceFusedMark t else t)]) rest)
    else
      if (if [' ', 'ๆ'] <:+: t then replaceFusedMark t else t)
          == ['ๆ'] then
        acc.getLast?.elim none (fun w => maiyamokGo (acc ++ [w]) rest)
      else if containsMark
          (if [' ', 'ๆ'] <:+: t then replaceFusedMark t else t) then
        maiyamokGo (acc ++
          [stripMark (if [' ', 'ๆ'] <:+: t then replaceFusedMark t
             else t),
           stripMark (if [' ', 'ๆ'] <:+: t then replaceFusedMark t
             else t)]) rest
      else maiyamokGo (acc ++
        [(if [' ', 'ๆ'] <:+: t then replaceFusedMark t else t)]) rest

/-- `maiyamok(sent)` on its token-list input form (the string input form
first calls the external tokenizer, out of scope here).  `none` models an
uncaught `IndexError`. -/
def maiyamok (sent : List (List Char)) : Option (List (List Char)) :=
  maiyamokGo [] sent

/-- Per the spec of the resolver's match search (amended): a candidate is
adopted when its stripped head is a suffix of the segment head — except
that a candidate whose stripped head is empty matches only an empty
segment head (the code's `segment_head[-0:]` is the whole string, not
the empty suffix). -/
def adoptableSpec (segment_head r : List Char) : Bool :=
  match r.getLast? with
  | none => false
  | some c =>
    let rh := get_repitition_head r c
    rh.isSuffixOf segment_head && (!rh.isEmpty || segment_head.isEmpty)

/-- Per the spec: the recorded repeat count of a candidate is its length
minus its stripped head's length. -/
def specRepetition (r : List Char) : Nat :=
  match r.getLast? with
  | none => 0
  | some c => r.length - (get_repitition_head r c).length

/-- Per the spec: the match search returns the longest adoptable
candidate together with its repeat count, and among candidates of equal
maximal length the one earliest in the stored order wins; `([], 0)` if no
candidate is adoptable.  (Right fold preferring the earlier candidate on
ties.) -/
def find_longest_spec (segment_head : List Char) :
    List (List Char) → List Char × Nat
  | [] => ([], 0)
  | r :: rs =>
    if adoptableSpec segment_head r &&
       decide ((find_longest_spec segment_head rs).1.length ≤ r.length)
    then (r, specRepetition r) else find_longest_spec segment_head rs

/-- Per the spec of the duplicate tone-mark collapse: decompose the text
into maximal runs; each maximal run of tone marks contributes exactly its
last character; every character outside tone-mark runs is kept
unchanged. -/
def collapseTonemarksSpec : List Char → List Char
  | [] => []
  | c :: cs =>
    if isTonemark c then
      (c :: cs.takeWhile isTonemark).getLast (by simp) ::
        collapseTonemarksSpec (cs.dropWhile isTonemark)
    else c :: collapseTonemarksSpec cs
termination_by s => s.length
decreasing_by
  all_goals simp_wf
  exact Nat.lt_succ_of_le (List.dropWhile_sublist _).length_le

/-- A space or a newline (the two characters the space/newline collapse
is about). -/
def isSpaceOrNewline (c : Char) : Bool := c == ' ' || c == '\n'

/-- No two adjacent characters are both spaces/newlines. -/
def noAdjacentWs : List Char → Bool
  | a :: b :: rest =>
    !(isSpaceOrNewline a && isSpaceOrNewline b) && noAdjacentWs (b :: rest)
  | _ => true

/-- Neither the first nor the last character is whitespace. -/
def noBoundaryWs (s : List Char) : Bool :=
  (s.head?.all (fun c => !pyWhitespace c)) &&
  (s.getLast?.all (fun c => !pyWhitespace c))

theorem is_consonant_repeater_ne_nil {w : List Char}
    (h : is_consonant_repeater w = true) : w ≠ [] := by
  intro hw
  subst hw
  simp [is_consonant_repeater] at h

theorem get_repitition_head_length_lt (r : List Char) (c : Char)
    (h : r.getLast? = some c) :
    (get_repitition_head r c).length < r.length := by
  have hrev : r.reverse.head? = some c := by
    rw [List.head?_reverse, h]
  unfold get_repitition_head
  rw [List.length_reverse]
  cases hr : r.reverse with
  | nil => rw [hr] at hrev; simp at hrev
  | cons a tl =>
    rw [hr] at hrev
    simp only [List.head?_cons, Option.some.injEq] at hrev
    subst hrev
    have hlen : r.length = tl.length + 1 := by
      have h2 := congrArg List.length hr
      simpa using h2
    rw [hlen]
    simp only [List.dropWhile_cons, beq_self_eq_true, if_true]
    exact Nat.lt_succ_of_le (List.dropWhile_sublist _).length_le

theorem find_longest_go_cons_none (head : List Char) (b : List Char × Nat)
    (r : List Char) (rs : List (List Char)) (h : r.getLast? = none) :
    find_longest_go head b (r :: rs) = none := by
  unfold find_longest_go
  rw [h]

theorem find_longest_go_cons (head : List Char) (b : List Char × Nat)
    (r : List Char) (rs : List (List Char)) (c : Char)
    (h : r.getLast? = some c) :
    find_longest_go head b (r :: rs) =
      (if (decide ((get_repitition_head r c).length ≤ head.length) &&
           (pySliceLastN head (get_repitition_head r c).length ==
             get_repitition_head r c)) &&
          decide (b.1.length < r.length)
       then find_longest_go head (r, r.length -
              (get_repitition_head r c).length) rs
       else find_longest_go head b rs) := by
  conv_lhs => unfold find_longest_go
  rw [h]

theorem find_longest_go_no_match (head : List Char) :
    ∀ (reps : List (List Char)) (b : List Char × Nat),
    (∀ r ∈ reps, repeater_matches head r = some false) →
    find_longest_go head b reps = some b := by
  intro reps
  induction reps with
  | nil => intro b _; rfl
  | cons r rs ih =>
    intro b h
    have hr := h r (List.mem_cons_self r rs)
    unfold repeater_matches at hr
    cases hlast : r.getLast? with
    | none => rw [hlast] at hr; simp at hr
    | some c =>
      rw [hlast] at hr
      simp only [Option.some.injEq] at hr
      rw [find_longest_go_cons head b r rs c hlast, hr, Bool.false_and,
        if_neg (by simp)]
      exact ih b (fun r' hr' => h r' (List.mem_cons_of_mem r hr'))

theorem find_longest_go_bounds (head : List Char) :
    ∀ (reps : List (List Char)) (b : List Char × Nat) (w : List Char)
      (k : Nat),
    (∀ r ∈ reps, r ≠ []) →
    (b.1 ≠ [] → 1 ≤ b.2 ∧ b.2 ≤ b.1.length) →
    find_longest_go head b reps = some (w, k) →
    w ≠ [] → 1 ≤ k ∧ k ≤ w.length := by
  intro reps
  induction reps with
  | nil =>
    intro b w k _ hb heq
    simp only [find_longest_go, Option.some.injEq] at heq
    subst heq
    simpa using hb
  | cons r rs ih =>
    intro b w k hne hb heq
    have hrne : r ≠ [] := hne r (List.mem_cons_self r rs)
    cases hlast : r.getLast? with
    | none =>
      rw [List.getLast?_eq_none_iff] at hlast
      exact absurd hlast hrne
    | some c =>
      rw [find_longest_go_cons head b r rs c hlast] at heq
      have hne' : ∀ r' ∈ rs, r' ≠ [] :=
        fun r' hr' => hne r' (List.mem_cons_of_mem r hr')
      by_cases hcond :
          ((decide ((get_repitition_head r c).length ≤ head.length) &&
            (pySliceLastN head (get_repitition_head r c).length ==
              get_repitition_head r c)) &&
           decide (b.1.length < r.length)) = true
      · rw [if_pos hcond] at heq
        refine ih _ w k hne' ?_ heq
        intro _
        have hlt := get_repitition_head_length_lt r c hlast
        constructor
        · omega
        · exact Nat.sub_le _ _
      · rw [if_neg hcond] at heq
        exact ih b w k hne' hb heq

theorem find_longest_go_isSome (head : List Char) :
    ∀ (reps : List (List Char)) (b : List Char × Nat),
    (∀ r ∈ reps, r ≠ []) →
    (find_longest_go head b reps).isSome := by
  intro reps
  induction reps with
  | nil => intro b _; rfl
  | cons r rs ih =>
    intro b hne
    have hrne : r ≠ [] := hne r (List.mem_cons_self r rs)
    cases hlast : r.getLast? with
    | none =>
      rw [List.getLast?_eq_none_iff] at hlast
      exact absurd hlast hrne
    | some c =>
      rw [find_longest_go_cons head b r rs c hlast]
      have hne' : ∀ r' ∈ rs, r' ≠ [] :=
        fun r' hr' => hne r' (List.mem_cons_of_mem r hr')
      by_cases hcond :
          ((decide ((get_repitition_head r c).length ≤ head.length) &&
            (pySliceLastN head (get_repitition_head r c).length ==
              get_repitition_head r c)) &&
           decide (b.1.length < r.length)) = true
      · rw [if_pos hcond]; exact ih _ hne'
      · rw [if_neg hcond]; exact ih _ hne'

theorem mapM_option_isSome {α β : Type} (f : α → Option β) :
    ∀ (l : List α), (∀ x ∈ l, (f x).isSome) → (l.mapM f).isSome := by
  intro l
  induction l with
  | nil => intro _; rfl
  | cons x xs ih =>
    intro h
    obtain ⟨y, hy⟩ := Option.isSome_iff_exists.mp
      (h x (List.mem_cons_self x xs))
    obtain ⟨ys, hys⟩ := Option.isSome_iff_exists.mp
      (ih (fun z hz => h z (List.mem_cons_of_mem x hz)))
    rw [List.mapM_cons, hy, hys]
    rfl

theorem remove_repeat_consonants_from_segment_cons (seg : List Char)
    (cache : Char → Option (List (List Char))) (r1 r2 : Char)
    (t : List Char) (h : seg.reverse = r1 :: r2 :: t) :
    remove_repeat_consonants_from_segment seg cache =
      (if r1 ∈ thai_consonants && r1 == r2 then
        (cache r1).bind (fun repeaters =>
          (find_longest_consonant_repeaters_match
            (get_repitition_head seg r1) repeaters).map
            (fun wk =>
              if 0 < wk.1.length then
                get_repitition_head seg r1 ++ List.replicate wk.2 r1
              else get_repitition_head seg r1 ++ [r1]))
       else some seg) := by
  conv_lhs => unfold remove_repeat_consonants_from_segment
  rw [h]

theorem remove_repeat_consonants_from_segment_isSome
    (seg : List Char) (cache : Char → Option (List (List Char)))
    (hc : ∀ d, d ∈ thai_consonants →
      ∃ reps, cache d = some reps ∧ ∀ r ∈ reps, r ≠ []) :
    (remove_repeat_consonants_from_segment seg cache).isSome := by
  cases hrev : seg.reverse with
  | nil => unfold remove_repeat_consonants_from_segment; rw [hrev]; rfl
  | cons r1 rest =>
    cases rest with
    | nil => unfold remove_repeat_consonants_from_segment; rw [hrev]; rfl
    | cons r2 t =>
      rw [remove_repeat_consonants_from_segment_cons seg cache r1 r2 t hrev]
      by_cases hcond : (r1 ∈ thai_consonants && r1 == r2) = true
      · have hr1 : r1 ∈ thai_consonants := by
          simpa using ((Bool.and_eq_true _ _).mp hcond).1
        obtain ⟨reps, hreps, hne⟩ := hc r1 hr1
        obtain ⟨p, hp⟩ := Option.isSome_iff_exists.mp
          (find_longest_go_isSome (get_repitition_head seg r1) reps
            ([], 0) hne)
        rw [if_pos hcond, hreps, Option.some_bind]
        unfold find_longest_consonant_repeaters_match
        rw [hp]
        rfl
      · rw [if_neg hcond]; rfl

theorem update_consonant_repeaters_total (dictionary : List (List Char))
    (cache : Char → Option (List (List Char))) :
    ∀ d, d ∈ thai_consonants →
      ∃ reps, update_consonant_repeaters dictionary cache d = some reps ∧
        ∀ r ∈ reps, r ≠ [] := by
  intro d hd
  refine ⟨dictionary.filter
    (fun w => is_consonant_repeater w && (w.getLast? == some d)), ?_, ?_⟩
  · unfold update_consonant_repeaters
    rw [if_pos hd]
  · intro r hr
    rw [List.mem_filter] at hr
    exact is_consonant_repeater_ne_nil ((Bool.and_eq_true _ _).mp hr.2).1

/-- Claim C2 (amended): whenever the rebuild flag is set,
`remove_repeat_consonants` returns normally (no exception) for every input
text, dictionary and prior cache state: the rebuilt repeater index has an
entry for every consonant, so the candidate-list lookup cannot fail, and
every other step is total. -/
theorem claim_C2_amended (text : List Char) (dictionary : List (List Char))
    (cache : Char → Option (List (List Char))) :
    (remove_repeat_consonants text dictionary cache true).isSome := by
  unfold remove_repeat_consonants
  simp only [if_true]
  have houter := mapM_option_isSome
    (fun line => ((line.splitOn ' ').mapM
        (fun seg => remove_repeat_consonants_from_segment seg
          (update_consonant_repeaters dictionary cache))).map
        (fun segs => List.intercalate [' '] segs))
    (text.splitOn '\n')
    (by
      intro line _
      rw [Option.isSome_map']
      exact mapM_option_isSome _ _ (fun seg _ =>
        remove_repeat_consonants_from_segment_isSome seg _
          (update_consonant_repeaters_total dictionary cache)))
  obtain ⟨ls, hls⟩ := Option.isSome_iff_exists.mp houter
  rw [hls]
  rfl

/-- Claim C2 counterexample: the claim quantifies over every value of the
rebuild flag, but with the flag false and an empty cache the candidate-list
lookup for the duplicated consonant is a plain `dict[key]` access that
raises `KeyError` (modelled as `none`) instead of yielding "no match". -/
theorem claim_C2_counterexample :
    remove_repeat_consonants ['ก', 'ด', 'ด'] [] (fun _ => none) false
      = none := by decide

/-- Claim C1 counterexample: on segment "กดด" (trailing run of length 2)
with candidate word "กดดด", the resolver confirms a repeat count of 3,
exceeding the actual run length in the input segment — the claimed upper
bound fails. -/
theorem claim_C1_counterexample :
    find_longest_consonant_repeaters_match ['ก'] [['ก', 'ด', 'ด', 'ด']]
      = some (['ก', 'ด', 'ด', 'ด'], 3) ∧
    trailingRunLength ['ก', 'ด', 'ด'] 'ด' = 2 ∧
    remove_repeat_consonants_from_segment ['ก', 'ด', 'ด']
      (fun c => if c == 'ด' then some [['ก', 'ด', 'ด', 'ด']] else none)
      = some ['ก', 'ด', 'ด', 'ด'] ∧
    ¬((3 : Nat) ≤ trailingRunLength ['ก', 'ด', 'ด'] 'ด') := by decide

/-- Claim C1 (amended): whenever the match search finds a dictionary match,
the confirmed repeat count is at least 1 and at most the length of the
matched dictionary word (its trailing-run length); it is not bounded by the
trailing-run length of the input segment. -/
theorem claim_C1_amended (head : List Char) (reps : List (List Char))
    (w : List Char) (k : Nat) (hne : ∀ r ∈ reps, r ≠ [])
    (h : find_longest_consonant_repeaters_match head reps = some (w, k))
    (hw : w ≠ []) : 1 ≤ k ∧ k ≤ w.length :=
  find_longest_go_bounds head reps ([], 0) w k hne (by simp) h hw

theorem claim_C1_witness :
    1 ≤ 2 ∧ 2 ≤ (['ด', 'ด'] : List Char).length :=
  claim_C1_amended [] [['ด', 'ด']] ['ด', 'ด'] 2 (by decide) (by decide)
    (by decide)

/-- Claim C5: for a segment meeting the resolver preconditions (length > 1,
last character a consonant, last two characters identical) whose stripped
head matches no candidate in the index, the output is the stripped head
followed by exactly one occurrence of the duplicated consonant. -/
theorem claim_C5 (segment t : List Char) (d : Char)
    (cache : Char → Option (List (List Char))) (reps : List (List Char))
    (hrev : segment.reverse = d :: d :: t)
    (hd : d ∈ thai_consonants)
    (hcache : cache d = some reps)
    (hnom : ∀ r ∈ reps,
      repeater_matches (get_repitition_head segment d) r = some false) :
    remove_repeat_consonants_from_segment segment cache
      = some (get_repitition_head segment d ++ [d]) := by
  have hfl : find_longest_consonant_repeaters_match
      (get_repitition_head segment d) reps = some ([], 0) :=
    find_longest_go_no_match _ reps ([], 0) hnom
  rw [remove_repeat_consonants_from_segment_cons segment cache d d t hrev]
  rw [if_pos (by simp [hd]), hcache, Option.some_bind, hfl,
    Option.map_some']
  simp

theorem claim_C5_witness :
    remove_repeat_consonants_from_segment ['ก', 'ด', 'ด']
      (fun c => if c == 'ด' then some [] else none)
      = some (get_repitition_head ['ก', 'ด', 'ด'] 'ด' ++ ['ด']) :=
  claim_C5 ['ก', 'ด', 'ด'] ['ก'] 'ด' _ [] (by decide) (by decide)
    (by decide) (by decide)

/-- Claim C9: the dangling trimmer removes exactly the maximal run of
non-base (dangling) characters anchored at position 0: the input splits as
that run followed by the trimmer's output, every removed character is a
dangling character, and the first kept character (if any) is not dangling —
so nothing after the first base character is touched. -/
theorem claim_C9 (t : List Char) :
    t.takeWhile isDangling ++ remove_dangling t = t ∧
    (∀ c ∈ t.takeWhile isDangling, isDangling c = true) ∧
    (∀ c, (remove_dangling t).head? = some c → isDangling c = false) := by
  refine ⟨List.takeWhile_append_dropWhile _ _,
    fun c hc => List.mem_takeWhile_imp hc, ?_⟩
  intro c
  induction t with
  | nil => intro hc; simp [remove_dangling] at hc
  | cons a l ih =>
    intro hc
    unfold remove_dangling at hc
    by_cases ha : isDangling a = true
    · rw [List.dropWhile_cons, if_pos ha] at hc
      exact ih hc
    · rw [List.dropWhile_cons, if_neg ha] at hc
      simp only [List.head?_cons, Option.some.injEq] at hc
      subst hc
      simpa using ha

theorem claim_C9_witness :
    List.takeWhile isDangling ['่', 'ก', '่'] ++
      remove_dangling ['่', 'ก', '่'] = ['่', 'ก', '่'] ∧
    (∀ c ∈ List.takeWhile isDangling ['่', 'ก', '่'],
      isDangling c = true) ∧
    (∀ c, (remove_dangling ['่', 'ก', '่']).head? = some c →
      isDangling c = false) :=
  claim_C9 ['่', 'ก', '่']

/-- Claim C4 (code bug): normalize is not idempotent.  On the input
"tone mark, space, ko kai" the final dangling trim exposes a leading space
that the earlier whitespace trim has already run over, so a second
application of normalize strips it and yields a different string. -/
theorem claim_C4_code_bug :
    normalize ['่', ' ', 'ก'] = [' ', 'ก'] ∧
    normalize (normalize ['่', ' ', 'ก']) = ['ก'] ∧
    normalize (normalize ['่', ' ', 'ก']) ≠ normalize ['่', ' ', 'ก'] := by
  decide

theorem adoptableSpec_ne_nil {head r : List Char}
    (h : adoptableSpec head r = true) : r ≠ [] := by
  intro hr
  subst hr
  simp [adoptableSpec] at h

theorem match_test_eq_adoptableSpec (head r : List Char) (c : Char)
    (h : r.getLast? = some c) :
    (decide ((get_repitition_head r c).length ≤ head.length) &&
      (pySliceLastN head (get_repitition_head r c).length ==
        get_repitition_head r c)) = adoptableSpec head r := by
  have hA : adoptableSpec head r =
      ((get_repitition_head r c).isSuffixOf head &&
        (!(get_repitition_head r c).isEmpty || head.isEmpty)) := by
    unfold adoptableSpec
    rw [h]
  rw [hA]
  by_cases hrh : get_repitition_head r c = []
  · rw [hrh]
    cases head with
    | nil => decide
    | cons a l =>
      have h1 : (([] : List Char).isSuffixOf (a :: l)) = true :=
        List.isSuffixOf_iff_suffix.mpr List.nil_suffix
      rw [h1]
      simp [pySliceLastN]
  · have hlen : (get_repitition_head r c).length ≠ 0 := by
      intro h2
      exact hrh (List.eq_nil_of_length_eq_zero h2)
    rw [Bool.eq_iff_iff]
    constructor
    · intro hL
      rw [Bool.and_eq_true, decide_eq_true_eq, beq_iff_eq] at hL
      obtain ⟨h1, h2⟩ := hL
      unfold pySliceLastN at h2
      rw [if_neg hlen] at h2
      have hsuf : get_repitition_head r c <:+ head :=
        List.suffix_iff_eq_drop.mpr h2.symm
      rw [Bool.and_eq_true]
      refine ⟨List.isSuffixOf_iff_suffix.mpr hsuf, ?_⟩
      cases hx : get_repitition_head r c with
      | nil => exact absurd hx hrh
      | cons a l => simp
    · intro hR
      rw [Bool.and_eq_true] at hR
      have hsuf : get_repitition_head r c <:+ head :=
        List.isSuffixOf_iff_suffix.mp hR.1
      rw [Bool.and_eq_true, decide_eq_true_eq, beq_iff_eq]
      refine ⟨hsuf.length_le, ?_⟩
      unfold pySliceLastN
      rw [if_neg hlen]
      exact (List.suffix_iff_eq_drop.mp hsuf).symm

theorem find_longest_spec_eq_nil (head : List Char)
    (reps : List (List Char))
    (h : (find_longest_spec head reps).1 = []) :
    find_longest_spec head reps = ([], 0) := by
  induction reps with
  | nil => rfl
  | cons r rs ih =>
    unfold find_longest_spec at h ⊢
    by_cases hA : (adoptableSpec head r &&
        decide ((find_longest_spec head rs).1.length ≤ r.length)) = true
    · rw [if_pos hA] at h ⊢
      have : r ≠ [] :=
        adoptableSpec_ne_nil ((Bool.and_eq_true _ _).mp hA).1
      exact absurd h this
    · rw [if_neg hA] at h ⊢
      exact ih h

theorem find_longest_go_spec (head : List Char) :
    ∀ (reps : List (List Char)) (b : List Char × Nat),
    (∀ r ∈ reps, r ≠ []) →
    find_longest_go head b reps =
      some (if b.1.length < (find_longest_spec head reps).1.length
            then find_longest_spec head reps else b) := by
  intro reps
  induction reps with
  | nil =>
    intro b _
    simp [find_longest_go, find_longest_spec]
  | cons r rs ih =>
    intro b hne
    have hrne : r ≠ [] := hne r (List.mem_cons_self r rs)
    have hne' : ∀ r' ∈ rs, r' ≠ [] :=
      fun r' hr' => hne r' (List.mem_cons_of_mem r hr')
    obtain ⟨c, hlast⟩ := Option.isSome_iff_exists.mp
      (by rw [List.getLast?_isSome]; exact hrne)
    have hrep : specRepetition r =
        r.length - (get_repitition_head r c).length := by
      unfold specRepetition
      rw [hlast]
    rw [find_longest_go_cons head b r rs c hlast,
      match_test_eq_adoptableSpec head r c hlast]
    by_cases hA : adoptableSpec head r = true
    · rw [hA, Bool.true_and]
      by_cases hbr : b.1.length < r.length
      · rw [if_pos (by simpa using hbr), ih _ hne']
        by_cases hsr : (find_longest_spec head rs).1.length ≤ r.length
        · have hS : find_longest_spec head (r :: rs)
              = (r, specRepetition r) := by
            conv_lhs => unfold find_longest_spec
            rw [hA, Bool.true_and, if_pos (by simpa using hsr)]
          rw [hS,
            if_neg (show ¬((r, r.length -
              (get_repitition_head r c).length).1.length <
              (find_longest_spec head rs).1.length) by
                show ¬(r.length < (find_longest_spec head rs).1.length)
                omega),
            if_pos (show b.1.length < (r, specRepetition r).1.length from
              hbr),
            hrep]
        · have hS : find_longest_spec head (r :: rs)
              = find_longest_spec head rs := by
            conv_lhs => unfold find_longest_spec
            rw [hA, Bool.true_and, if_neg (by simpa using hsr)]
          rw [hS,
            if_pos (show (r, r.length -
              (get_repitition_head r c).length).1.length <
              (find_longest_spec head rs).1.length by
                show r.length < (find_longest_spec head rs).1.length
                omega),
            if_pos (show b.1.length <
              (find_longest_spec head rs).1.length by omega)]
      · rw [if_neg (by simpa using hbr), ih _ hne']
        by_cases hsr : (find_longest_spec head rs).1.length ≤ r.length
        · have hS : find_longest_spec head (r :: rs)
              = (r, specRepetition r) := by
            conv_lhs => unfold find_longest_spec
            rw [hA, Bool.true_and, if_pos (by simpa using hsr)]
          rw [hS,
            if_neg (show ¬(b.1.length <
              (find_longest_spec head rs).1.length) by omega),
            if_neg (show ¬(b.1.length <
              (r, specRepetition r).1.length) from hbr)]
        · have hS : find_longest_spec head (r :: rs)
              = find_longest_spec head rs := by
            conv_lhs => unfold find_longest_spec
            rw [hA, Bool.true_and, if_neg (by simpa using hsr)]
          rw [hS]
    · have hA' : adoptableSpec head r = false := by
        rw [Bool.not_eq_true] at hA
        exact hA
      rw [hA', Bool.false_and, if_neg (by simp), ih _ hne']
      have hS : find_longest_spec head (r :: rs)
          = find_longest_spec head rs := by
        conv_lhs => unfold find_longest_spec
        rw [hA', Bool.false_and, if_neg (by simp)]
      rw [hS]

/-- Claim C3 counterexample: the claim says a candidate is adopted exactly
when the head ends with the candidate's stripped head and the candidate is
strictly longer than the current best.  For candidate "ดดด" (stripped head
empty) and head "ก" the empty list is a suffix of the head and 3 > 0, yet
the search adopts nothing: Python's `segment_head[-0:]` is the whole
string, so an empty stripped head only matches an empty head. -/
theorem claim_C3_counterexample :
    get_repitition_head ['ด', 'ด', 'ด'] 'ด' = [] ∧
    List.isSuffixOf (get_repitition_head ['ด', 'ด', 'ด'] 'ด') ['ก'] = true ∧
    (['ด', 'ด', 'ด'] : List Char).length > 0 ∧
    find_longest_consonant_repeaters_match ['ก'] [['ด', 'ด', 'ด']]
      = some ([], 0) := by decide

/-- Claim C3 (amended): over candidate lists of nonempty words, the match
search realizes exactly this specification: a candidate is adoptable when
its stripped head is a suffix of the head — except that a candidate with an
empty stripped head matches only an empty head —, the recorded repeat count
equals candidate length minus stripped-head length, the longest adoptable
candidate wins, and among candidates of equal maximal length the first in
stored order wins. -/
theorem claim_C3_amended (head : List Char) (reps : List (List Char))
    (hne : ∀ r ∈ reps, r ≠ []) :
    find_longest_consonant_repeaters_match head reps
      = some (find_longest_spec head reps) := by
  have h := find_longest_go_spec head reps ([], 0) hne
  unfold find_longest_consonant_repeaters_match
  rw [h]
  by_cases h0 : (([] : List Char), 0).1.length <
      (find_longest_spec head reps).1.length
  · rw [if_pos h0]
  · rw [if_neg h0]
    have hlen : (find_longest_spec head reps).1.length = 0 := by
      simp only [List.length_nil] at h0
      omega
    rw [find_longest_spec_eq_nil head reps
      (List.eq_nil_of_length_eq_zero hlen)]

theorem claim_C3_witness :
    find_longest_consonant_repeaters_match ['ก'] [['ก', 'ด', 'ด']]
      = some (find_longest_spec ['ก'] [['ก', 'ด', 'ด']]) :=
  claim_C3_amended ['ก'] [['ก', 'ด', 'ด']] (by decide)

theorem collapseTonemarks_cons_cons (c d : Char) (ds : List Char) :
    collapseTonemarks (c :: d :: ds) =
      if isTonemark c then
        (if isTonemark d then collapseTonemarks (d :: ds)
         else c :: collapseTonemarks (d :: ds))
      else c :: collapseTonemarks (d :: ds) := by
  conv_lhs => unfold collapseTonemarks

theorem collapseTonemarks_singleton (c : Char) :
    collapseTonemarks [c] = [c] := by
  unfold collapseTonemarks
  split <;> rfl

theorem collapseTonemarks_cons_nontone (c : Char) (cs : List Char)
    (hc : ¬isTonemark c = true) :
    collapseTonemarks (c :: cs) = c :: collapseTonemarks cs := by
  cases cs with
  | nil => rw [collapseTonemarks_singleton]; rfl
  | cons d ds =>
    rw [collapseTonemarks_cons_cons, if_neg hc]

theorem collapseTonemarksSpec_nil : collapseTonemarksSpec [] = [] := by
  unfold collapseTonemarksSpec
  rfl

theorem collapseTonemarksSpec_cons (c : Char) (cs : List Char) :
    collapseTonemarksSpec (c :: cs) =
      if isTonemark c then
        (c :: cs.takeWhile isTonemark).getLast (by simp) ::
          collapseTonemarksSpec (cs.dropWhile isTonemark)
      else c :: collapseTonemarksSpec cs := by
  conv_lhs => unfold collapseTonemarksSpec

theorem collapseTonemarks_tone_cons (cs : List Char) :
    ∀ (c : Char), isTonemark c = true →
    collapseTonemarks (c :: cs) =
      (c :: cs.takeWhile isTonemark).getLast (by simp) ::
        collapseTonemarks (cs.dropWhile isTonemark) := by
  induction cs with
  | nil =>
    intro c _
    rw [collapseTonemarks_singleton]
    rfl
  | cons d ds ih =>
    intro c hc
    by_cases hd : isTonemark d = true
    · rw [collapseTonemarks_cons_cons, if_pos hc, if_pos hd, ih d hd,
        List.takeWhile_cons_of_pos hd, List.dropWhile_cons_of_pos hd]
      congr 1
    · rw [collapseTonemarks_cons_cons, if_pos hc, if_neg hd,
        List.takeWhile_cons_of_neg hd, List.dropWhile_cons_of_neg hd]
      rfl

/-- Claim C7: after the duplicate tone-mark collapse pass, every maximal
run of one or more tone-mark characters (identical or differing) in the
input is replaced by exactly its last character, and no other character is
affected: the pass equals the specification function that decomposes the
text into maximal tone-mark runs, keeps every character outside them, and
maps each run to its last character. -/
theorem claim_C7 (s : List Char) :
    collapseTonemarks s = collapseTonemarksSpec s := by
  have H : ∀ (n : Nat) (t : List Char), t.length ≤ n →
      collapseTonemarks t = collapseTonemarksSpec t := by
    intro n
    induction n with
    | zero =>
      intro t ht
      rw [Nat.le_zero] at ht
      rw [List.eq_nil_of_length_eq_zero ht, collapseTonemarksSpec_nil]
      rfl
    | succ n ihn =>
      intro t ht
      cases t with
      | nil => rw [collapseTonemarksSpec_nil]; rfl
      | cons c cs =>
        rw [collapseTonemarksSpec_cons]
        by_cases hc : isTonemark c = true
        · rw [if_pos hc, collapseTonemarks_tone_cons cs c hc,
            ihn (cs.dropWhile isTonemark)
              (le_trans (List.dropWhile_sublist _).length_le
                (by simpa using ht))]
        · rw [if_neg hc, collapseTonemarks_cons_nontone c cs hc,
            ihn cs (by simpa using ht)]
  exact H s.length s le_rfl

theorem hasDoubleSpace_cons_false {c : Char} {rest : List Char}
    (h : hasDoubleSpace (c :: rest) = false) :
    hasDoubleSpace rest = false := by
  cases rest with
  | nil => rfl
  | cons d ds =>
    unfold hasDoubleSpace at h
    exact ((Bool.or_eq_false_iff).mp h).2

theorem hasDoubleSpace_space_cons {rest : List Char}
    (h : hasDoubleSpace (' ' :: rest) = false) :
    rest.head? ≠ some ' ' := by
  cases rest with
  | nil => simp
  | cons d ds =>
    unfold hasDoubleSpace at h
    obtain ⟨h1, _⟩ := (Bool.or_eq_false_iff).mp h
    intro hd
    simp only [List.head?_cons, Option.some.injEq] at hd
    subst hd
    simp at h1

theorem replaceDoubleSpace_length_le :
    ∀ (n : Nat) (l : List Char), l.length ≤ n →
    (replaceDoubleSpace l).length ≤ l.length := by
  intro n
  induction n with
  | zero =>
    intro l hl
    rw [Nat.le_zero] at hl
    rw [List.eq_nil_of_length_eq_zero hl]
    exact Nat.le_refl _
  | succ n ihn =>
    intro l hl
    cases l with
    | nil => exact Nat.le_refl _
    | cons a l' =>
      cases l' with
      | nil => exact Nat.le_refl _
      | cons b rest =>
        unfold replaceDoubleSpace
        simp only [List.length_cons] at hl
        by_cases hab : (a == ' ' && b == ' ') = true
        · rw [if_pos hab]
          have := ihn rest (by omega)
          simp only [List.length_cons]
          omega
        · rw [if_neg hab]
          have := ihn (b :: rest) (by simp only [List.length_cons]; omega)
          simp only [List.length_cons] at this ⊢
          omega

theorem replaceDoubleSpace_length_lt :
    ∀ (n : Nat) (l : List Char), l.length ≤ n → hasDoubleSpace l = true →
    (replaceDoubleSpace l).length < l.length := by
  intro n
  induction n with
  | zero =>
    intro l hl hd
    rw [Nat.le_zero] at hl
    rw [List.eq_nil_of_length_eq_zero hl] at hd
    simp [hasDoubleSpace] at hd
  | succ n ihn =>
    intro l hl hd
    cases l with
    | nil => simp [hasDoubleSpace] at hd
    | cons a l' =>
      cases l' with
      | nil => simp [hasDoubleSpace] at hd
      | cons b rest =>
        unfold replaceDoubleSpace
        simp only [List.length_cons] at hl
        by_cases hab : (a == ' ' && b == ' ') = true
        · rw [if_pos hab]
          have := replaceDoubleSpace_length_le (n + 1) rest (by omega)
          simp only [List.length_cons]
          omega
        · rw [if_neg hab]
          have hd' : hasDoubleSpace (b :: rest) = true := by
            unfold hasDoubleSpace at hd
            rw [Bool.or_eq_true] at hd
            rcases hd with h | h
            · exact absurd h hab
            · exact h
          have := ihn (b :: rest) (by simp only [List.length_cons]; omega)
            hd'
          simp only [List.length_cons] at this ⊢
          omega

theorem dupSpacesLoop_no_double :
    ∀ (n : Nat) (l : List Char), l.length ≤ n →
    hasDoubleSpace (dupSpacesLoop n l) = false := by
  intro n
  induction n with
  | zero =>
    intro l hl
    rw [Nat.le_zero] at hl
    rw [List.eq_nil_of_length_eq_zero hl]
    rfl
  | succ n ihn =>
    intro l hl
    unfold dupSpacesLoop
    by_cases hd : hasDoubleSpace l = true
    · rw [if_pos hd]
      apply ihn
      have := replaceDoubleSpace_length_lt (n + 1) l hl hd
      omega
    · rw [if_neg hd]
      simpa using hd

theorem noAdjacentWs_tail {c : Char} {l : List Char}
    (h : noAdjacentWs (c :: l) = true) : noAdjacentWs l = true := by
  cases l with
  | nil => rfl
  | cons d ds =>
    unfold noAdjacentWs at h
    exact ((Bool.and_eq_true _ _).mp h).2

theorem noAdjacentWs_cons_nonws {c : Char} {l : List Char}
    (hc : isSpaceOrNewline c = false) (h : noAdjacentWs l = true) :
    noAdjacentWs (c :: l) = true := by
  cases l with
  | nil => rfl
  | cons d ds =>
    unfold noAdjacentWs
    rw [hc, Bool.false_and, Bool.not_false, Bool.true_and]
    exact h

theorem noAdjacentWs_pair_nonws {w c : Char} {l : List Char}
    (hc : isSpaceOrNewline c = false)
    (h : noAdjacentWs (c :: l) = true) :
    noAdjacentWs (w :: c :: l) = true := by
  unfold noAdjacentWs
  rw [hc, Bool.and_false, Bool.not_false, Bool.true_and]
  exact h

theorem removeNewlinesGo_noAdjWs :
    ∀ (s : List Char) (cnt : Nat) (nl : Bool),
    (nl = false → cnt ≤ 1) →
    (nl = false → cnt = 1 → s.head? ≠ some ' ') →
    hasDoubleSpace s = false →
    noAdjacentWs (removeNewlinesGo cnt nl s) = true := by
  intro s
  induction s with
  | nil =>
    intro cnt nl h1 _ _
    cases nl with
    | true => rfl
    | false =>
      rcases Nat.le_one_iff_eq_zero_or_eq_one.mp (h1 rfl) with h | h <;>
        subst h <;> rfl
  | cons c rest ih =>
    intro cnt nl h1 h2 h3
    unfold removeNewlinesGo
    by_cases hsp : (c == ' ') = true
    · rw [if_pos hsp]
      have hceq : c = ' ' := by simpa using hsp
      subst hceq
      apply ih
      · intro hnl
        have hle := h1 hnl
        have hne : cnt ≠ 1 := by
          intro hc1
          exact (h2 hnl hc1) rfl
        omega
      · intro _ _
        exact hasDoubleSpace_space_cons h3
      · exact hasDoubleSpace_cons_false h3
    · rw [if_neg hsp]
      by_cases hnlc : (c == '\n') = true
      · rw [if_pos hnlc]
        apply ih
        · intro h; exact absurd h (by simp)
        · intro h; exact absurd h (by simp)
        · exact hasDoubleSpace_cons_false h3
      · rw [if_neg hnlc]
        have hws : isSpaceOrNewline c = false := by
          unfold isSpaceOrNewline
          rw [Bool.not_eq_true] at hsp hnlc
          rw [hsp, hnlc]
          rfl
        have hrec : noAdjacentWs (removeNewlinesGo 0 false rest) = true :=
          ih 0 false (fun _ => by omega) (fun _ h => absurd h (by omega))
            (hasDoubleSpace_cons_false h3)
        have hcons :
            noAdjacentWs (c :: removeNewlinesGo 0 false rest) = true :=
          noAdjacentWs_cons_nonws hws hrec
        cases nl with
        | true => exact noAdjacentWs_pair_nonws hws hcons
        | false =>
          rcases Nat.le_one_iff_eq_zero_or_eq_one.mp (h1 rfl) with h | h <;>
            subst h
          · exact hcons
          · exact noAdjacentWs_pair_nonws hws hcons

theorem noAdjacentWs_dropWhile (p : Char → Bool) :
    ∀ (l : List Char), noAdjacentWs l = true →
    noAdjacentWs (l.dropWhile p) = true := by
  intro l
  induction l with
  | nil => intro h; exact h
  | cons a l' ih =>
    intro h
    rw [List.dropWhile_cons]
    by_cases hp : p a = true
    · rw [if_pos hp]; exact ih (noAdjacentWs_tail h)
    · rw [if_neg hp]; exact h

theorem noAdjacentWs_cons_cons (a b : Char) (l : List Char) :
    noAdjacentWs (a :: b :: l) =
      (!(isSpaceOrNewline a && isSpaceOrNewline b) &&
        noAdjacentWs (b :: l)) := by
  conv_lhs => unfold noAdjacentWs

theorem noAdjacentWs_append_left :
    ∀ (a b : List Char), noAdjacentWs (a ++ b) = true →
    noAdjacentWs a = true := by
  intro a
  induction a with
  | nil => intro b _; rfl
  | cons x a' ih =>
    intro b h
    cases a' with
    | nil => rfl
    | cons y a'' =>
      rw [List.cons_append, List.cons_append] at h
      rw [noAdjacentWs_cons_cons] at h ⊢
      rw [Bool.and_eq_true] at h ⊢
      refine ⟨h.1, ih b ?_⟩
      rw [List.cons_append]
      exact h.2

theorem noAdjacentWs_mono {l₁ l₂ : List Char} (h : l₁ <+: l₂)
    (hl : noAdjacentWs l₂ = true) : noAdjacentWs l₁ = true := by
  obtain ⟨t, rfl⟩ := h
  exact noAdjacentWs_append_left l₁ t hl

theorem trimRight_prefix_self : ∀ (l : List Char), trimRight l <+: l := by
  intro l
  induction l with
  | nil => exact List.nil_prefix
  | cons a l' ih =>
    unfold trimRight
    by_cases he : (trimRight l').isEmpty = true
    · rw [if_pos he]
      by_cases hw : pyWhitespace a = true
      · rw [if_pos hw]; exact List.nil_prefix
      · rw [if_neg hw]; exact ⟨l', rfl⟩
    · rw [if_neg he]
      exact List.cons_prefix_cons.mpr ⟨rfl, ih⟩

theorem dropWhile_head_not {p : Char → Bool} :
    ∀ (l : List Char) (c : Char),
    (l.dropWhile p).head? = some c → p c = false := by
  intro l
  induction l with
  | nil => intro c hc; simp at hc
  | cons a l' ih =>
    intro c hc
    rw [List.dropWhile_cons] at hc
    by_cases hp : p a = true
    · rw [if_pos hp] at hc; exact ih c hc
    · rw [if_neg hp] at hc
      simp only [List.head?_cons, Option.some.injEq] at hc
      subst hc
      simpa using hp

theorem trimRight_getLast_not :
    ∀ (l : List Char) (c : Char), (trimRight l).getLast? = some c →
    pyWhitespace c = false := by
  intro l
  induction l with
  | nil => intro c h; simp [trimRight] at h
  | cons a l' ih =>
    intro c h
    unfold trimRight at h
    by_cases he : (trimRight l').isEmpty = true
    · rw [if_pos he] at h
      by_cases hw : pyWhitespace a = true
      · rw [if_pos hw] at h; simp at h
      · rw [if_neg hw] at h
        simp only [List.getLast?_singleton, Option.some.injEq] at h
        subst h
        simpa using hw
    · rw [if_neg he] at h
      cases htr : trimRight l' with
      | nil => rw [htr] at he; simp at he
      | cons x xs =>
        rw [htr] at h
        rw [List.getLast?_cons_cons] at h
        apply ih c
        rw [htr]
        exact h

theorem trimRight_head (l : List Char) (c : Char)
    (h : (trimRight l).head? = some c) : l.head? = some c := by
  cases l with
  | nil => simp [trimRight] at h
  | cons a l' =>
    unfold trimRight at h
    by_cases he : (trimRight l').isEmpty = true
    · rw [if_pos he] at h
      by_cases hw : pyWhitespace a = true
      · rw [if_pos hw] at h; simp at h
      · rw [if_neg hw] at h
        simpa using h
    · rw [if_neg he] at h
      simpa using h

/-- Claim C8: for every input text, the output of `remove_dup_spaces`
contains no two adjacent characters that are both spaces/newlines — hence
no two consecutive spaces, and every surviving newline stands alone (each
run containing a newline was collapsed to exactly that one newline) — and
the result has no leading or trailing whitespace. -/
theorem claim_C8 (t : List Char) :
    noAdjacentWs (remove_dup_spaces t) = true ∧
    noBoundaryWs (remove_dup_spaces t) = true := by
  unfold remove_dup_spaces pyStrip
  have hnd : hasDoubleSpace (dupSpacesLoop t.length t) = false :=
    dupSpacesLoop_no_double t.length t (Nat.le_refl _)
  have hadj2 :
      noAdjacentWs (removeNewlines (dupSpacesLoop t.length t)) = true := by
    unfold removeNewlines
    exact removeNewlinesGo_noAdjWs _ 0 false (fun _ => by omega)
      (fun _ h => absurd h (by omega)) hnd
  have hadj3 : noAdjacentWs ((removeNewlines
      (dupSpacesLoop t.length t)).dropWhile pyWhitespace) = true :=
    noAdjacentWs_dropWhile _ _ hadj2
  refine ⟨noAdjacentWs_mono (trimRight_prefix_self _) hadj3, ?_⟩
  unfold noBoundaryWs
  rw [Bool.and_eq_true]
  constructor
  · cases hh : (trimRight ((removeNewlines
        (dupSpacesLoop t.length t)).dropWhile pyWhitespace)).head? with
    | none => rfl
    | some c =>
      have h1 := trimRight_head _ c hh
      have h2 := dropWhile_head_not _ c h1
      simp [Option.all, h2]
  · cases hl : (trimRight ((removeNewlines
        (dupSpacesLoop t.length t)).dropWhile pyWhitespace)).getLast? with
    | none => rfl
    | some c =>
      have h2 := trimRight_getLast_not _ c hl
      simp [Option.all, h2]

theorem pyIsSpaceStr_no_mark {t : List Char}
    (h : pyIsSpaceStr t = true) : containsMark t = false := by
  unfold containsMark
  rw [decide_eq_false_iff_not]
  intro hmem
  have hall := ((Bool.and_eq_true _ _).mp h).2
  rw [List.all_eq_true] at hall
  have := hall 'ๆ' hmem
  simp [pyWhitespace] at this

theorem containsMark_no_fused {t : List Char}
    (h : containsMark t = false) : ¬([' ', 'ๆ'] <:+: t) := by
  intro hinf
  have hmem : 'ๆ' ∈ t := hinf.sublist.subset (by simp)
  unfold containsMark at h
  rw [decide_eq_false_iff_not] at h
  exact h hmem

theorem containsMark_ne_single {t : List Char}
    (h : containsMark t = false) : ¬((t == ['ๆ']) = true) := by
  intro hbe
  rw [beq_iff_eq] at hbe
  subst hbe
  simp [containsMark] at h

theorem containsMark_not_space {t : List Char}
    (h : containsMark t = true) : pyIsSpaceStr t = false := by
  by_contra hn
  rw [Bool.not_eq_false] at hn
  rw [pyIsSpaceStr_no_mark hn] at h
  exact Bool.false_ne_true h

theorem replaceFusedMark_mark :
    ∀ (n : Nat) (t : List Char), t.length ≤ n → containsMark t = true →
    containsMark (replaceFusedMark t) = true := by
  intro n
  induction n with
  | zero =>
    intro t ht hm
    rw [Nat.le_zero] at ht
    rw [List.eq_nil_of_length_eq_zero ht] at hm
    simp [containsMark] at hm
  | succ n ihn =>
    intro t ht hm
    cases t with
    | nil => simp [containsMark] at hm
    | cons a t' =>
      cases t' with
      | nil =>
        unfold replaceFusedMark
        exact hm
      | cons b rest =>
        simp only [List.length_cons] at ht
        unfold replaceFusedMark
        by_cases hab : (a == ' ' && b == 'ๆ') = true
        · rw [if_pos hab]
          simp [containsMark]
        · rw [if_neg hab]
          simp only [containsMark, List.mem_cons, decide_eq_true_eq]
            at hm ⊢
          rcases hm with h | h
          · exact Or.inl h
          · right
            have := ihn (b :: rest)
              (by simp only [List.length_cons]; omega)
              (by
                simp only [containsMark, decide_eq_true_eq]
                exact List.mem_cons.mpr h)
            simpa [containsMark] using this

theorem maiyamokGo_cons_space_nil (acc : List (List Char)) (t : List Char)
    (h : pyIsSpaceStr t = true) :
    maiyamokGo acc [t] = none := by
  conv_lhs => unfold maiyamokGo
  rw [if_pos h]
  rfl

theorem maiyamokGo_cons_space_skip (acc : List (List Char))
    (t next : List Char) (rest : List (List Char))
    (ht : pyIsSpaceStr t = true) (hn : containsMark next = true) :
    maiyamokGo acc (t :: next :: rest) = maiyamokGo acc (next :: rest) := by
  conv_lhs => unfold maiyamokGo
  rw [if_pos ht]
  simp only [List.head?_cons, Option.elim_some]
  rw [if_pos hn]

theorem maiyamokGo_cons_nospace (acc : List (List Char)) (t : List Char)
    (rest : List (List Char)) (h : pyIsSpaceStr t = false) :
    maiyamokGo acc (t :: rest) =
      (if (if [' ', 'ๆ'] <:+: t then replaceFusedMark t else t)
          == ['ๆ'] then
        acc.getLast?.elim none (fun w => maiyamokGo (acc ++ [w]) rest)
      else if containsMark
          (if [' ', 'ๆ'] <:+: t then replaceFusedMark t else t) then
        maiyamokGo (acc ++
          [stripMark (if [' ', 'ๆ'] <:+: t then replaceFusedMark t
             else t),
           stripMark (if [' ', 'ๆ'] <:+: t then replaceFusedMark t
             else t)]) rest
      else maiyamokGo (acc ++
        [(if [' ', 'ๆ'] <:+: t then replaceFusedMark t else t)]) rest) := by
  conv_lhs => unfold maiyamokGo
  rw [if_neg (by rw [h]; exact Bool.false_ne_true)]

theorem maiyamokGo_cons_space_proc (acc : List (List Char))
    (t next : List Char) (rest : List (List Char))
    (ht : pyIsSpaceStr t = true) (hn : containsMark next = false) :
    maiyamokGo acc (t :: next :: rest) =
      maiyamokGo (acc ++ [t]) (next :: rest) := by
  have hmark : containsMark t = false := pyIsSpaceStr_no_mark ht
  conv_lhs => unfold maiyamokGo
  rw [if_pos ht]
  simp only [List.head?_cons, Option.elim_some]
  rw [if_neg (by rw [hn]; exact Bool.false_ne_true),
    if_neg (by
      rw [if_neg (containsMark_no_fused hmark)]
      exact containsMark_ne_single hmark),
    if_neg (by
      rw [if_neg (containsMark_no_fused hmark), hmark]
      exact Bool.false_ne_true)]
  rw [if_neg (containsMark_no_fused hmark)]

theorem maiyamokGo_last_space :
    ∀ (sent : List (List Char)) (acc : List (List Char)) (w : List Char),
    sent.getLast? = some w → pyIsSpaceStr w = true →
    maiyamokGo acc sent = none := by
  intro sent
  induction sent with
  | nil => intro acc w h _; simp at h
  | cons t rest ih =>
    intro acc w h hw
    cases rest with
    | nil =>
      simp only [List.getLast?_singleton, Option.some.injEq] at h
      subst h
      exact maiyamokGo_cons_space_nil acc t hw
    | cons next rest' =>
      rw [List.getLast?_cons_cons] at h
      by_cases ht : pyIsSpaceStr t = true
      · by_cases hn : containsMark next = true
        · rw [maiyamokGo_cons_space_skip acc t next rest' ht hn]
          exact ih acc w h hw
        · rw [maiyamokGo_cons_space_proc acc t next rest' ht
            (by simpa using hn)]
          exact ih _ w h hw
      · rw [maiyamokGo_cons_nospace acc t (next :: rest')
          (by simpa using ht)]
        by_cases hb : ((if [' ', 'ๆ'] <:+: t then replaceFusedMark t
            else t) == ['ๆ']) = true
        · rw [if_pos hb]
          cases hacc : acc.getLast? with
          | none => rfl
          | some v =>
            rw [Option.elim_some]
            exact ih _ w h hw
        · rw [if_neg hb]
          by_cases hcm : containsMark (if [' ', 'ๆ'] <:+: t
              then replaceFusedMark t else t) = true
          · rw [if_pos hcm]
            exact ih _ w h hw
          · rw [if_neg hcm]
            exact ih _ w h hw

/-- Claim C10: for every input token sequence whose last token is
whitespace-only, `maiyamok` raises `IndexError` (modelled as `none`):
the loop inspects the token following any whitespace token, and at the
last position that lookup is out of range. -/
theorem claim_C10 (sent : List (List Char)) (w : List Char)
    (h1 : sent.getLast? = some w) (h2 : pyIsSpaceStr w = true) :
    maiyamok sent = none :=
  maiyamokGo_last_space sent [] w h1 h2

theorem claim_C10_witness : maiyamok [['ก'], [' ']] = none :=
  claim_C10 [['ก'], [' ']] [' '] (by decide) (by decide)

theorem maiyamokGo_fused_eq_bare :
    ∀ (xs : List (List Char)) (acc ys : List (List Char)),
    maiyamokGo acc (xs ++ [' ', 'ๆ'] :: ys)
      = maiyamokGo acc (xs ++ ['ๆ'] :: ys) := by
  intro xs
  induction xs with
  | nil =>
    intro acc ys
    rfl
  | cons x xs' ih =>
    intro acc ys
    rw [List.cons_append, List.cons_append]
    by_cases hx : pyIsSpaceStr x = true
    · cases xs' with
      | nil =>
        rw [List.nil_append, List.nil_append]
        rw [maiyamokGo_cons_space_skip acc x [' ', 'ๆ'] ys hx (by decide),
          maiyamokGo_cons_space_skip acc x ['ๆ'] ys hx (by decide)]
        exact ih acc ys
      | cons y xs'' =>
        rw [List.cons_append, List.cons_append]
        by_cases hy : containsMark y = true
        · rw [maiyamokGo_cons_space_skip acc x y _ hx hy,
            maiyamokGo_cons_space_skip acc x y _ hx hy]
          have h2 := ih acc ys
          rw [List.cons_append, List.cons_append] at h2
          exact h2
        · rw [maiyamokGo_cons_space_proc acc x y _ hx (by simpa using hy),
            maiyamokGo_cons_space_proc acc x y _ hx (by simpa using hy)]
          have h2 := ih (acc ++ [x]) ys
          rw [List.cons_append, List.cons_append] at h2
          exact h2
    · rw [maiyamokGo_cons_nospace acc x _ (by simpa using hx),
        maiyamokGo_cons_nospace acc x _ (by simpa using hx)]
      by_cases hb : ((if [' ', 'ๆ'] <:+: x then replaceFusedMark x
          else x) == ['ๆ']) = true
      · rw [if_pos hb, if_pos hb]
        cases hacc : acc.getLast? with
        | none => rfl
        | some v =>
          rw [Option.elim_some, Option.elim_some]
          exact ih _ ys
      · rw [if_neg hb, if_neg hb]
        by_cases hcm : containsMark (if [' ', 'ๆ'] <:+: x
            then replaceFusedMark x else x) = true
        · rw [if_pos hcm, if_pos hcm]
          exact ih _ ys
        · rw [if_neg hcm, if_neg hcm]
          exact ih _ ys

/-- Claim C6: the repetition-mark expander maps a token sequence
`[A, B, mark]` to `[A, B, B]`; a token that is a space fused with the mark
is handled exactly like a bare mark token anywhere in the sequence; and a
token combining literal text with the mark (not reducing to the bare mark
after de-fusing) appends two consecutive copies of the mark-stripped
token, preserving all other output in left-to-right order. -/
theorem claim_C6 :
    (∀ (A B : List Char),
      pyIsSpaceStr A = false → pyIsSpaceStr B = false →
      containsMark A = false → containsMark B = false →
      maiyamok [A, B, ['ๆ']] = some [A, B, B]) ∧
    (∀ (acc xs ys : List (List Char)),
      maiyamokGo acc (xs ++ [' ', 'ๆ'] :: ys)
        = maiyamokGo acc (xs ++ ['ๆ'] :: ys)) ∧
    (∀ (acc : List (List Char)) (t : List Char)
      (rest : List (List Char)),
      containsMark t = true →
      ¬(((if [' ', 'ๆ'] <:+: t then replaceFusedMark t else t)
        == ['ๆ']) = true) →
      maiyamokGo acc (t :: rest) =
        maiyamokGo (acc ++
          [stripMark (if [' ', 'ๆ'] <:+: t then replaceFusedMark t
            else t),
           stripMark (if [' ', 'ๆ'] <:+: t then replaceFusedMark t
            else t)]) rest) := by
  refine ⟨?_, ?_, ?_⟩
  · intro A B hA hB hmA hmB
    unfold maiyamok
    rw [maiyamokGo_cons_nospace [] A [B, ['ๆ']] hA,
      if_neg (containsMark_no_fused hmA)]
    rw [if_neg (containsMark_ne_single hmA),
      if_neg (by rw [hmA]; exact Bool.false_ne_true),
      List.nil_append]
    rw [maiyamokGo_cons_nospace [A] B [['ๆ']] hB,
      if_neg (containsMark_no_fused hmB)]
    rw [if_neg (containsMark_ne_single hmB),
      if_neg (by rw [hmB]; exact Bool.false_ne_true)]
    show maiyamokGo [A, B] [['ๆ']] = some [A, B, B]
    rw [maiyamokGo_cons_nospace [A, B] ['ๆ'] [] (by decide),
      if_neg (by decide : ¬([' ', 'ๆ'] <:+: (['ๆ'] : List Char)))]
    rw [if_pos (by decide : ((['ๆ'] : List Char) == ['ๆ']) = true)]
    rfl
  · intro acc xs ys
    exact maiyamokGo_fused_eq_bare xs acc ys
  · intro acc t rest hcm hne
    have hc : containsMark (if [' ', 'ๆ'] <:+: t then replaceFusedMark t
        else t) = true := by
      by_cases hf : [' ', 'ๆ'] <:+: t
      · rw [if_pos hf]
        exact replaceFusedMark_mark t.length t (Nat.le_refl _) hcm
      · rw [if_neg hf]
        exact hcm
    rw [maiyamokGo_cons_nospace acc t rest (containsMark_not_space hcm),
      if_neg hne, if_pos hc]

theorem claim_C6_witness :
    maiyamok [['ก'], ['ข'], ['ๆ']] = some [['ก'], ['ข'], ['ข']] ∧
    maiyamokGo [] ([[' ', 'ๆ']]) = maiyamokGo [] ([['ๆ']]) ∧
    maiyamokGo [] [['ก', 'ๆ']] =
      maiyamokGo
        [stripMark (if [' ', 'ๆ'] <:+: (['ก', 'ๆ'] : List Char)
           then replaceFusedMark ['ก', 'ๆ'] else ['ก', 'ๆ']),
         stripMark (if [' ', 'ๆ'] <:+: (['ก', 'ๆ'] : List Char)
           then replaceFusedMark ['ก', 'ๆ'] else ['ก', 'ๆ'])] [] :=
  ⟨claim_C6.1 ['ก'] ['ข'] (by decide) (by decide) (by decide) (by decide),
   claim_C6.2.1 [] [] [],
   by
    have h := claim_C6.2.2 [] ['ก', 'ๆ'] [] (by decide) (by decide)
    simpa using h⟩

end PyThaiNLP
